import Mathlib

/-!
Verification development for the pizza-delivery chat bot's persistence layer
(redis_client.py).  The Redis store is modelled as a pure value: hashes are
association lists from field to stored blob, sorted sets are association
lists from member to rational score.  Stored JSON strings are modelled at
the JSON-value level (a blob is either a parsed JSON tree or an unparseable
string), and Python datetime objects are modelled by their calendar fields,
with executable models of isoformat, fromisoformat, timestamp and
fromtimestamp.  Each API-level redis call may raise inside its try/except
block; this is modelled by an explicit fail flag on each operation.
-/

/-- Model of a Python naive datetime: calendar fields, microsecond precision. -/
structure Datetime where
  year : Nat
  month : Nat
  day : Nat
  hour : Nat
  minute : Nat
  second : Nat
  microsecond : Nat
deriving DecidableEq, Repr

/-- Leap-year test, as in the proleptic Gregorian calendar used by Python. -/
def isLeap (y : Nat) : Bool :=
  (y % 4 == 0 && y % 100 != 0) || y % 400 == 0

/-- Number of days in a month. -/
def daysInMonth (y m : Nat) : Nat :=
  if m = 2 then (if isLeap y then 29 else 28)
  else if m = 4 ∨ m = 6 ∨ m = 9 ∨ m = 11 then 30
  else 31

/-- Range validity of a datetime, mirroring the constructor checks of the
Python datetime class (MINYEAR = 1, MAXYEAR = 9999). -/
def Datetime.validB (d : Datetime) : Bool :=
  1 ≤ d.year && d.year ≤ 9999 && 1 ≤ d.month && d.month ≤ 12 &&
  1 ≤ d.day && d.day ≤ daysInMonth d.year d.month &&
  d.hour ≤ 23 && d.minute ≤ 59 && d.second ≤ 59 && d.microsecond ≤ 999999

def Datetime.Valid (d : Datetime) : Prop := d.validB = true

instance (d : Datetime) : Decidable d.Valid := by
  unfold Datetime.Valid; infer_instance

/-- The minimum representable datetime, Python datetime.min. -/
def Datetime.min : Datetime := ⟨1, 1, 1, 0, 0, 0, 0⟩

/-- Radix encoding of a datetime into a natural number; for valid datetimes
this encoding is strictly monotone with respect to the field-lexicographic
comparison Python uses on datetimes, so it serves as the sort key. -/
def Datetime.code (d : Datetime) : Nat :=
  (((((d.year * 13 + d.month) * 32 + d.day) * 24 + d.hour) * 60 +
      d.minute) * 60 + d.second) * 1000000 + d.microsecond

/-- The character for a decimal digit. -/
def digitChar (n : Nat) : Char := Char.ofNat (48 + n)

/-- Zero-padded decimal rendering of n % 10 ^ k, most significant digit first. -/
def padN : Nat → Nat → List Char
  | 0, _ => []
  | k + 1, n => digitChar (n / 10 ^ k % 10) :: padN k n

/-- The characters of the isoformat rendering of a datetime: the format
YYYY-MM-DDTHH:MM:SS, followed by .ffffff exactly when microsecond is
nonzero, as Python datetime.isoformat produces for naive datetimes. -/
def Datetime.isoChars (d : Datetime) : List Char :=
  padN 4 d.year ++ '-' :: (padN 2 d.month ++ '-' :: (padN 2 d.day ++
    'T' :: (padN 2 d.hour ++ ':' :: (padN 2 d.minute ++ ':' :: (padN 2 d.second ++
      (if d.microsecond = 0 then [] else '.' :: padN 6 d.microsecond))))))

def Datetime.isoformat (d : Datetime) : String := String.mk d.isoChars

/-- Numeric value of a decimal digit character, none for a non-digit. -/
def digitVal (c : Char) : Option Nat :=
  if 48 ≤ c.toNat ∧ c.toNat ≤ 57 then some (c.toNat - 48) else none

/-- Parse exactly k decimal digits, accumulating into acc. -/
def parseN : Nat → List Char → Nat → Option (Nat × List Char)
  | 0, cs, acc => some (acc, cs)
  | _ + 1, [], _ => none
  | k + 1, c :: cs, acc =>
    match digitVal c with
    | some d => parseN k cs (acc * 10 + d)
    | none => none

/-- Consume one expected character. -/
def expectChar (c : Char) : List Char → Option (List Char)
  | [] => none
  | c' :: cs => if c' = c then some cs else none

/-- Parse the optional fractional-second suffix: either nothing (microsecond
zero) or a dot followed by one to six digits, scaled to microseconds, with
nothing allowed after it.  This is the fractional syntax produced by
isoformat and accepted by fromisoformat. -/
def parseFrac : List Char → Option Nat
  | [] => some 0
  | c :: cs =>
    if c = '.' ∧ 1 ≤ cs.length ∧ cs.length ≤ 6 then
      match parseN cs.length cs 0 with
      | some (v, []) => some (v * 10 ^ (6 - cs.length))
      | _ => none
    else none

/-- Parser for the isoformat datetime layout written by Datetime.isoformat
(the layout the program itself stores); component ranges are validated as
the Python datetime constructor does, so malformed strings yield none just
as datetime.fromisoformat raises ValueError. -/
def fromisoChars (cs : List Char) : Option Datetime :=
  (parseN 4 cs 0).bind fun py =>
  (expectChar '-' py.2).bind fun cs2 =>
  (parseN 2 cs2 0).bind fun pmo =>
  (expectChar '-' pmo.2).bind fun cs4 =>
  (parseN 2 cs4 0).bind fun pda =>
  (expectChar 'T' pda.2).bind fun cs6 =>
  (parseN 2 cs6 0).bind fun ph =>
  (expectChar ':' ph.2).bind fun cs8 =>
  (parseN 2 cs8 0).bind fun pmi =>
  (expectChar ':' pmi.2).bind fun cs10 =>
  (parseN 2 cs10 0).bind fun ps =>
  (parseFrac ps.2).bind fun us =>
  if (⟨py.1, pmo.1, pda.1, ph.1, pmi.1, ps.1, us⟩ : Datetime).validB then
    some ⟨py.1, pmo.1, pda.1, ph.1, pmi.1, ps.1, us⟩
  else none

def Datetime.fromisoformat (s : String) : Option Datetime := fromisoChars s.data

theorem digitVal_digitChar (d : Nat) (h : d < 10) :
    digitVal (digitChar d) = some d := by
  interval_cases d <;> decide

theorem parseN_padN (k : Nat) : ∀ (n acc : Nat) (rest : List Char),
    parseN k (padN k n ++ rest) acc = some (acc * 10 ^ k + n % 10 ^ k, rest) := by
  induction k with
  | zero => intro n acc rest; simp [padN, parseN, Nat.mod_one]
  | succ k ih =>
    intro n acc rest
    have hd : n / 10 ^ k % 10 < 10 := Nat.mod_lt _ (by norm_num)
    simp only [padN, List.cons_append, parseN, digitVal_digitChar _ hd, List.append_eq]
    rw [ih]
    congr 2
    have h1 : n % 10 ^ (k + 1) = 10 ^ k * (n / 10 ^ k % 10) + n % 10 ^ k := by
      rw [pow_succ, Nat.mod_mul]
      ring
    rw [h1, pow_succ]
    ring

theorem parseN_padN_lt (k n : Nat) (hn : n < 10 ^ k) (rest : List Char) :
    parseN k (padN k n ++ rest) 0 = some (n, rest) := by
  rw [parseN_padN, Nat.zero_mul, Nat.zero_add, Nat.mod_eq_of_lt hn]

theorem expectChar_cons (c : Char) (cs : List Char) :
    expectChar c (c :: cs) = some cs := by
  simp [expectChar]

theorem padN_length (k n : Nat) : (padN k n).length = k := by
  induction k generalizing n with
  | zero => rfl
  | succ k ih => simp [padN, ih]

theorem parseFrac_nil : parseFrac [] = some 0 := rfl

theorem parseFrac_padN (n : Nat) (h : n < 1000000) :
    parseFrac ('.' :: padN 6 n) = some n := by
  have h6 : (padN 6 n).length = 6 := padN_length 6 n
  have hp := parseN_padN_lt 6 n (by simpa using h) []
  simp only [List.append_nil] at hp
  simp [parseFrac, h6, hp]

theorem parseFrac_iso (us : Nat) (h : us < 1000000) :
    parseFrac (if us = 0 then [] else '.' :: padN 6 us) = some us := by
  by_cases hz : us = 0
  · subst hz; rw [if_pos rfl]; rfl
  · rw [if_neg hz, parseFrac_padN us h]

/-- Round trip: parsing the isoformat rendering of a valid datetime recovers
it exactly (Python: datetime.fromisoformat(d.isoformat()) == d). -/
theorem fromisoformat_isoformat (d : Datetime) (h : d.Valid) :
    Datetime.fromisoformat d.isoformat = some d := by
  obtain ⟨y, mo, da, hh, mi, s, us⟩ := d
  have hv := h
  unfold Datetime.Valid Datetime.validB at hv
  simp only [Bool.and_eq_true, decide_eq_true_eq] at hv
  obtain ⟨⟨⟨⟨⟨⟨⟨⟨⟨hy1, hy2⟩, hm1⟩, hm2⟩, hd1⟩, hd2⟩, hh1⟩, hmi1⟩, hs1⟩, hus1⟩ := hv
  have hdim : daysInMonth y mo ≤ 31 := by
    unfold daysInMonth
    split
    · split <;> norm_num
    · split <;> norm_num
  have hdm : da ≤ 31 := le_trans hd2 hdim
  unfold Datetime.fromisoformat Datetime.isoformat Datetime.isoChars
  simp only [String.mk]
  show fromisoChars _ = _
  unfold fromisoChars
  rw [parseN_padN_lt 4 y (by omega)]
  simp only [Option.bind_eq_bind, Option.some_bind]
  rw [expectChar_cons]
  simp only [Option.some_bind]
  rw [parseN_padN_lt 2 mo (by omega)]
  simp only [Option.some_bind]
  rw [expectChar_cons]
  simp only [Option.some_bind]
  rw [parseN_padN_lt 2 da (by omega)]
  simp only [Option.some_bind]
  rw [expectChar_cons]
  simp only [Option.some_bind]
  rw [parseN_padN_lt 2 hh (by omega)]
  simp only [Option.some_bind]
  rw [expectChar_cons]
  simp only [Option.some_bind]
  rw [parseN_padN_lt 2 mi (by omega)]
  simp only [Option.some_bind]
  rw [expectChar_cons]
  simp only [Option.some_bind]
  rw [parseN_padN_lt 2 s (by omega)]
  simp only [Option.some_bind]
  rw [parseFrac_iso us (by omega)]
  simp only [Option.some_bind]
  have hb : (⟨y, mo, da, hh, mi, s, us⟩ : Datetime).validB = true := h
  simp [hb]

/-- With validity bounds the radix encoding dominates the encoding of
datetime.min, so a missing timestamp (keyed as datetime.min) sorts before
or with every parsed timestamp. -/
theorem min_code_le (d : Datetime) (h : d.Valid) :
    Datetime.min.code ≤ d.code := by
  obtain ⟨y, mo, da, hh, mi, s, us⟩ := d
  unfold Datetime.Valid Datetime.validB at h
  simp only [Bool.and_eq_true, decide_eq_true_eq] at h
  obtain ⟨⟨⟨⟨⟨⟨⟨⟨⟨hy1, _⟩, hm1⟩, _⟩, hd1⟩, _⟩, _⟩, _⟩, _⟩, _⟩ := h
  simp only [Datetime.code, Datetime.min]
  omega

/-- Parsed datetimes satisfy the constructor range checks. -/
theorem fromisoformat_valid (s : String) (d : Datetime)
    (h : Datetime.fromisoformat s = some d) : d.Valid := by
  unfold Datetime.fromisoformat fromisoChars at h
  simp only [Option.bind_eq_some] at h
  obtain ⟨py, _, cs2, _, pmo, _, cs4, _, pda, _, cs6, _, ph, _, cs8, _,
    pmi, _, cs10, _, ps, _, us, _, hfin⟩ := h
  split at hfin <;> simp_all [Datetime.Valid]

/-- Days since 1970-01-01 of a Gregorian calendar date: Hinnant's
days-from-civil algorithm, modelling the epoch arithmetic behind Python
datetime.timestamp for UTC datetimes. -/
def daysFromCivil (y m d : Int) : Int :=
  let y2 := if m ≤ 2 then y - 1 else y
  let era := y2.ediv 400
  let yoe := y2 - era * 400
  let mp := (m + 9).emod 12
  let doy := (153 * mp + 2).ediv 5 + d - 1
  let doe := yoe * 365 + yoe.ediv 4 - yoe.ediv 100 + doy
  era * 146097 + doe - 719468

/-- Inverse direction: Hinnant's civil-from-days algorithm. -/
def civilFromDays (z0 : Int) : Int × Int × Int :=
  let z := z0 + 719468
  let era := z.ediv 146097
  let doe := z - era * 146097
  let yoe := (doe - doe.ediv 1460 + doe.ediv 36524 - doe.ediv 146096).ediv 365
  let y := yoe + era * 400
  let doy := doe - (365 * yoe + yoe.ediv 4 - yoe.ediv 100)
  let mp := (5 * doy + 2).ediv 153
  let d := doy - (153 * mp + 2).ediv 5 + 1
  let m := if mp < 10 then mp + 3 else mp - 9
  (if m ≤ 2 then y + 1 else y, m, d)

/-- Python datetime.timestamp, modelled for UTC datetimes: exact seconds
since 1970-01-01T00:00:00 as a rational (the bot stores Telegram message
dates, which are timezone-aware UTC datetimes, and ZADD scores them with
this number). -/
def Datetime.timestamp (dt : Datetime) : Rat :=
  ((daysFromCivil dt.year dt.month dt.day * 86400 +
    dt.hour * 3600 + dt.minute * 60 + dt.second : Int) : Rat) +
  (dt.microsecond : Rat) / 1000000

/-- Python datetime.fromtimestamp, modelled for UTC: round the score to
whole microseconds, split into days and second-of-day, rebuild the calendar
date; none when the year leaves the representable range 1..9999 (Python
raises).  Python rounds ties to even; a tie at half a microsecond cannot
arise from a stored timestamp, and this model rounds it up. -/
def Datetime.fromtimestamp (t : Rat) : Option Datetime :=
  let totalMicro : Int := round (t * 1000000)
  let sec := totalMicro.ediv 1000000
  let usec := (totalMicro.emod 1000000).toNat
  let days := sec.ediv 86400
  let sod := (sec.emod 86400).toNat
  let c := civilFromDays days
  if 1 ≤ c.1 ∧ c.1 ≤ 9999 then
    some ⟨c.1.toNat, c.2.1.toNat, c.2.2.toNat, sod / 3600, sod % 3600 / 60, sod % 60, usec⟩
  else none

/-- A JSON value, the image of json.loads on a successfully parsed string. -/
inductive Json where
  | null
  | bool (b : Bool)
  | num (q : Rat)
  | str (s : String)
  | arr (elems : List Json)
  | obj (fields : List (String × Json))
deriving Repr

/-- Python truthiness of a JSON-decoded value (None, False, zero, and empty
containers and strings are falsy). -/
def jsonTruthy : Json → Bool
  | .null => false
  | .bool b => b
  | .num q => decide (q ≠ 0)
  | .str s => decide (s ≠ "")
  | .arr [] => false
  | .arr (_ :: _) => true
  | .obj [] => false
  | .obj (_ :: _) => true

/-- A value stored in a Redis hash field, modelled at the JSON level: either
a string that json.loads parses to the given JSON tree, or a string on which
json.loads raises. -/
inductive Blob where
  | json (j : Json)
  | malformed
deriving Repr

/-- First-match lookup in an association list (Redis hash fields and sorted
set members are unique, so the first match is the match). -/
def alookup {α : Type} : List (String × α) → String → Option α
  | [], _ => none
  | (f, v) :: rest, k => if f = k then some v else alookup rest k

/-- Redis upsert of one hash field (HSET) or one sorted-set member (ZADD):
a present field keeps its position and gets the new value, an absent field
is appended. -/
def upsertEntry {α : Type} : List (String × α) → String → α → List (String × α)
  | [], f, v => [(f, v)]
  | (f', v') :: rest, f, v =>
    if f' = f then (f, v) :: rest else (f', v') :: upsertEntry rest f v

/-- Key lookup in a parsed JSON object, as Python dict.get: with duplicate
keys the later occurrence wins, because json.loads builds a dict. -/
def jsonGet (fs : List (String × Json)) (k : String) : Option Json :=
  alookup fs.reverse k

/-- The Redis database: each key names a hash (association list of
field/blob pairs, insertion-ordered as HGETALL iterates a small hash) and a
sorted set (association list of member/score pairs).  Unwritten keys map to
the empty collection, as in Redis. -/
structure Store where
  hashes : String → List (String × Blob)
  zsets : String → List (String × Rat)

/-- Key of the hash holding one day's orders (ORDER_PREFIX plus the date
string). -/
def get_order_key_for_date (date_str : String) : String :=
  "food_orders:" ++ date_str

/-- Key of the sorted set holding one user's messages (MESSAGES_USER_PREFIX
plus the decimal user id). -/
def get_messages_key_for_user (user_id : Int) : String :=
  "messages:user:" ++ toString user_id

/-- The serialized order payload written by add_or_update_order: json.dumps
of the dict with keys food and timestamp_iso. -/
def orderPayload (food : String) (order_time : Datetime) : Blob :=
  Blob.json (Json.obj
    [("food", Json.str food), ("timestamp_iso", Json.str order_time.isoformat)])

/-- add_or_update_order from redis_client.py.  conn models the module-level
redis_conn (none when the startup connection failed), today the value of
get_current_date_str(), and fail a raise from the HSET call inside the try
block (no write happens and the except branch returns false). -/
def add_or_update_order (conn : Option Store) (fail : Bool)
    (today display_name food : String) (order_time : Datetime) :
    Option Store × Bool :=
  match conn with
  | none => (none, false)
  | some st =>
    if fail then (some st, false)
    else
      let order_key := get_order_key_for_date today
      let newHash := upsertEntry (st.hashes order_key) display_name
        (orderPayload food order_time)
      (some { st with hashes := Function.update st.hashes order_key newHash }, true)

/-- One entry of the list built by get_orders_for_day: the dict with keys
username, food and timestamp_iso (the last possibly Python None, both when
the stored key is absent and when it is JSON null). -/
structure OrderEntry where
  username : String
  food : Json
  timestamp_iso : Option Json
deriving Repr

/-- One iteration of the deserialization loop in get_orders_for_day: a blob
on which json.loads raises, or which parses to a non-object (so that .get
raises AttributeError), is skipped by the inner except; an object yields
the entry with food defaulting to the string N/A. -/
def parseEntry (display_name : String) (b : Blob) : Option OrderEntry :=
  match b with
  | Blob.malformed => none
  | Blob.json (Json.obj fs) =>
    some { username := display_name,
           food := (jsonGet fs "food").getD (Json.str "N/A"),
           timestamp_iso := jsonGet fs "timestamp_iso" }
  | Blob.json _ => none

/-- The sort key computed by the lambda in get_orders_for_day, as the radix
code of the datetime: a missing or falsy timestamp sorts as datetime.min; a
truthy string goes through datetime.fromisoformat; a truthy non-string
raises TypeError and a malformed string raises ValueError (none), and the
exception escapes list.sort into the outer except. -/
def sortKey (e : OrderEntry) : Option Nat :=
  match e.timestamp_iso with
  | none => some Datetime.min.code
  | some j =>
    if jsonTruthy j then
      match j with
      | Json.str s => (Datetime.fromisoformat s).map Datetime.code
      | _ => none
    else some Datetime.min.code

/-- Computes every entry's sort key, failing when any raises (list.sort
propagates an exception from its key function). -/
def attachKeys : List OrderEntry → Option (List (Nat × OrderEntry))
  | [] => some []
  | e :: rest =>
    match sortKey e, attachKeys rest with
    | some k, some ks => some ((k, e) :: ks)
    | _, _ => none

/-- get_orders_for_day from redis_client.py.  fail models the HGETALL call
raising; an exception out of the sort-key lambda reaches the same outer
except, so it also yields the empty list.  The sort is a stable merge sort
ascending on the precomputed keys, as Python list.sort. -/
def get_orders_for_day (conn : Option Store) (fail : Bool) (date_str : String) :
    List OrderEntry :=
  match conn with
  | none => []
  | some st =>
    if fail then []
    else
      let order_key := get_order_key_for_date date_str
      let raw := st.hashes order_key
      if raw.isEmpty then []
      else
        let orders_list := raw.filterMap (fun p => parseEntry p.1 p.2)
        match attachKeys orders_list with
        | none => []
        | some keyed =>
          (keyed.mergeSort (fun a b => decide (a.1 ≤ b.1))).map Prod.snd

/-- delete_order_for_user from redis_client.py: HDEL of one field, result
compared with zero; fail models the HDEL call raising (except branch
returns false). -/
def delete_order_for_user (conn : Option Store) (fail : Bool)
    (display_name date_str : String) : Option Store × Bool :=
  match conn with
  | none => (none, false)
  | some st =>
    if fail then (some st, false)
    else
      let order_key := get_order_key_for_date date_str
      let h := st.hashes order_key
      let result := h.countP (fun p => decide (p.1 = display_name))
      let newHash := h.filter (fun p => decide (p.1 ≠ display_name))
      (some { st with hashes := Function.update st.hashes order_key newHash },
       decide (0 < result))

/-- store_user_message from redis_client.py: ZADD of the message text with
the Unix timestamp of the message time as score. -/
def store_user_message (conn : Option Store) (fail : Bool) (user_id : Int)
    (message_text : String) (message_time : Datetime) : Option Store × Bool :=
  match conn with
  | none => (none, false)
  | some st =>
    if fail then (some st, false)
    else
      let messages_key := get_messages_key_for_user user_id
      let newZset := upsertEntry (st.zsets messages_key) message_text
        message_time.timestamp
      (some { st with zsets := Function.update st.zsets messages_key newZset }, true)

/-- Redis orders a sorted set by score, ties broken by lexicographic member
order. -/
def zle (a b : String × Rat) : Bool :=
  decide (a.2 < b.2) || (decide (a.2 = b.2) && decide (a.1 ≤ b.1))

/-- ZREVRANGE key start stop WITHSCORES: inclusive indices into the
descending ordering, negative indices counting from the end, out-of-range
indices clamped. -/
def zrevrange (zs : List (String × Rat)) (start stop : Int) :
    List (String × Rat) :=
  let rev := (zs.mergeSort zle).reverse
  let n : Int := rev.length
  let start2 := if start < 0 then max (n + start) 0 else start
  let stop2 := if stop < 0 then n + stop else stop
  if start2 ≤ stop2 ∧ start2 < n then
    (rev.drop start2.toNat).take (stop2 - start2 + 1).toNat
  else []

/-- get_user_messages_desc from redis_client.py: ZREVRANGE 0 .. count-1
with scores (count defaults to 100 at the call boundary), each score
converted back to a datetime; a member whose score fails to convert is
logged and skipped. -/
def get_user_messages_desc (conn : Option Store) (fail : Bool)
    (user_id : Int) (count : Int) : List (String × Datetime) :=
  match conn with
  | none => []
  | some st =>
    if fail then []
    else
      let messages_key := get_messages_key_for_user user_id
      let results := zrevrange (st.zsets messages_key) 0 (count - 1)
      results.filterMap
        (fun p => (Datetime.fromtimestamp p.2).map (fun d => (p.1, d)))

theorem alookup_upsertEntry_self {α : Type} (h : List (String × α)) (f : String) (v : α) :
    alookup (upsertEntry h f v) f = some v := by
  induction h with
  | nil => simp [upsertEntry, alookup]
  | cons p rest ih =>
    obtain ⟨f', v'⟩ := p
    by_cases hf : f' = f
    · subst hf; simp [upsertEntry, alookup]
    · simp [upsertEntry, alookup, hf, ih]

theorem alookup_upsertEntry_ne {α : Type} (h : List (String × α)) (f f' : String)
    (v : α) (hne : f' ≠ f) :
    alookup (upsertEntry h f v) f' = alookup h f' := by
  induction h with
  | nil => simp [upsertEntry, alookup, Ne.symm hne]
  | cons p rest ih =>
    obtain ⟨g, w⟩ := p
    by_cases hg : g = f
    · subst hg; simp [upsertEntry, alookup, Ne.symm hne]
    · simp [upsertEntry, alookup, hg, ih]

theorem map_fst_upsertEntry {α : Type} (h : List (String × α)) (f : String) (v : α) :
    (upsertEntry h f v).map Prod.fst =
      if f ∈ h.map Prod.fst then h.map Prod.fst else h.map Prod.fst ++ [f] := by
  induction h with
  | nil => simp [upsertEntry]
  | cons p rest ih =>
    obtain ⟨g, w⟩ := p
    by_cases hg : g = f
    · subst hg; simp [upsertEntry]
    · simp only [upsertEntry, if_neg hg, List.map_cons, ih, List.mem_cons]
      by_cases hm : f ∈ rest.map Prod.fst
      · simp [hm, Ne.symm hg]
      · simp [hm, Ne.symm hg]

theorem nodup_upsertEntry {α : Type} (h : List (String × α)) (f : String) (v : α)
    (hnd : (h.map Prod.fst).Nodup) :
    ((upsertEntry h f v).map Prod.fst).Nodup := by
  rw [map_fst_upsertEntry]
  split
  · exact hnd
  · rename_i hnm
    refine List.Nodup.append hnd (List.nodup_singleton f) ?_
    intro x hx hx'
    simp only [List.mem_singleton] at hx'
    subst hx'
    exact hnm hx

theorem filter_fst_eq_nil {α : Type} (h : List (String × α)) (f : String)
    (hn : f ∉ h.map Prod.fst) :
    h.filter (fun p => p.1 == f) = [] := by
  induction h with
  | nil => rfl
  | cons p rest ih =>
    simp only [List.map_cons, List.mem_cons, not_or] at hn
    obtain ⟨h1, h2⟩ := hn
    have h1b : (p.1 == f) = false := by
      simp only [beq_eq_false_iff_ne]
      exact fun hh => h1 hh.symm
    simp [List.filter_cons, h1b, ih h2]

theorem filter_upsertEntry_self {α : Type} (h : List (String × α)) (f : String)
    (v : α) (hnd : (h.map Prod.fst).Nodup) :
    (upsertEntry h f v).filter (fun p => p.1 == f) = [(f, v)] := by
  induction h with
  | nil => simp [upsertEntry]
  | cons p rest ih =>
    obtain ⟨g, w⟩ := p
    simp only [List.map_cons, List.nodup_cons] at hnd
    obtain ⟨hnm, hnd2⟩ := hnd
    by_cases hg : g = f
    · subst hg
      simp only [upsertEntry, if_pos rfl, List.filter_cons, beq_self_eq_true,
        if_pos trivial]
      rw [filter_fst_eq_nil rest g hnm]
    · have hgb : (g == f) = false := by
        simp only [beq_eq_false_iff_ne]; exact hg
      simp [upsertEntry, hg, List.filter_cons, hgb, ih hnd2]

theorem countP_fst_pos_iff {α : Type} (h : List (String × α)) (f : String) :
    0 < h.countP (fun p => decide (p.1 = f)) ↔ (alookup h f).isSome := by
  induction h with
  | nil => simp [alookup]
  | cons p rest ih =>
    by_cases hp : p.1 = f
    · simp [List.countP_cons, alookup, hp]
    · simp [List.countP_cons, alookup, hp, ih]

theorem alookup_filter_ne {α : Type} (h : List (String × α)) (f : String) :
    alookup (h.filter (fun p => decide (p.1 ≠ f))) f = none := by
  induction h with
  | nil => rfl
  | cons p rest ih =>
    obtain ⟨g, w⟩ := p
    rw [List.filter_cons]
    by_cases hp : g = f
    · rw [if_neg (by simp [hp])]
      exact ih
    · rw [if_pos (by simp [hp]), alookup, if_neg hp]
      exact ih

theorem countP_filter_ne {α : Type} (h : List (String × α)) (f : String) :
    (h.filter (fun p => decide (p.1 ≠ f))).countP (fun p => decide (p.1 = f)) = 0 := by
  rw [List.countP_filter, List.countP_eq_zero]
  intro p _
  simp

theorem parseEntry_username (f : String) (b : Blob) (e : OrderEntry)
    (h : parseEntry f b = some e) : e.username = f := by
  cases b with
  | malformed => simp [parseEntry] at h
  | json j =>
    cases j <;> simp only [parseEntry, Option.some.injEq] at h <;> try exact absurd h (by simp)
    subst h
    rfl

theorem mem_filterMap_parseEntry (h : List (String × Blob)) (e : OrderEntry)
    (hm : e ∈ h.filterMap (fun p => parseEntry p.1 p.2)) :
    e.username ∈ h.map Prod.fst := by
  rw [List.mem_filterMap] at hm
  obtain ⟨p, hp, hpe⟩ := hm
  rw [parseEntry_username p.1 p.2 e hpe]
  exact List.mem_map_of_mem Prod.fst hp

theorem attachKeys_map_snd : ∀ (es : List OrderEntry) (ks : List (Nat × OrderEntry)),
    attachKeys es = some ks → ks.map Prod.snd = es := by
  intro es
  induction es with
  | nil => intro ks h; simp [attachKeys] at h; simp [← h]
  | cons e rest ih =>
    intro ks h
    simp only [attachKeys] at h
    cases hk : sortKey e with
    | none => rw [hk] at h; simp at h
    | some k =>
      rw [hk] at h
      cases ha : attachKeys rest with
      | none => rw [ha] at h; simp at h
      | some ks2 =>
        rw [ha] at h
        simp only [Option.some.injEq] at h
        subst h
        simp [ih ks2 ha]

theorem attachKeys_mem_key : ∀ (es : List OrderEntry) (ks : List (Nat × OrderEntry))
    (q : Nat × OrderEntry), attachKeys es = some ks → q ∈ ks → sortKey q.2 = some q.1 := by
  intro es
  induction es with
  | nil => intro ks q h hq; simp [attachKeys] at h; subst h; simp at hq
  | cons e rest ih =>
    intro ks q h hq
    simp only [attachKeys] at h
    cases hk : sortKey e with
    | none => rw [hk] at h; simp at h
    | some k =>
      rw [hk] at h
      cases ha : attachKeys rest with
      | none => rw [ha] at h; simp at h
      | some ks2 =>
        rw [ha] at h
        simp only [Option.some.injEq] at h
        subst h
        rcases List.mem_cons.mp hq with hq1 | hq2
        · subst hq1; simpa using hk
        · exact ih ks2 q ha hq2

theorem attachKeys_of_all : ∀ (es : List OrderEntry),
    (∀ e ∈ es, (sortKey e).isSome) → ∃ ks, attachKeys es = some ks := by
  intro es
  induction es with
  | nil => intro _; exact ⟨[], rfl⟩
  | cons e rest ih =>
    intro hall
    obtain ⟨k, hk⟩ := Option.isSome_iff_exists.mp (hall e (by simp))
    obtain ⟨ks2, hks2⟩ := ih (fun e' he' => hall e' (by simp [he']))
    exact ⟨(k, e) :: ks2, by simp [attachKeys, hk, hks2]⟩

theorem not_mem_fst_filter_ne {α : Type} (h : List (String × α)) (f : String) :
    f ∉ (h.filter (fun p => decide (p.1 ≠ f))).map Prod.fst := by
  intro hm
  rw [List.mem_map] at hm
  obtain ⟨p, hp, hfst⟩ := hm
  have := List.of_mem_filter hp
  simp only [decide_eq_true_eq] at this
  exact this hfst

theorem mem_get_orders_username (st : Store) (fail : Bool) (d : String)
    (e : OrderEntry) (hmem : e ∈ get_orders_for_day (some st) fail d) :
    e.username ∈ (st.hashes (get_order_key_for_date d)).map Prod.fst := by
  simp only [get_orders_for_day] at hmem
  by_cases hf : fail
  · simp [hf] at hmem
  · simp only [if_neg (by simp [hf] : ¬ (fail = true))] at hmem
    by_cases he : (st.hashes (get_order_key_for_date d)).isEmpty
    · simp [he] at hmem
    · simp only [if_neg (by simp [he] : ¬ ((st.hashes (get_order_key_for_date d)).isEmpty = true))] at hmem
      rcases hks : attachKeys ((st.hashes (get_order_key_for_date d)).filterMap
          fun p => parseEntry p.1 p.2) with _ | ks
      · rw [hks] at hmem; simp at hmem
      · rw [hks] at hmem
        simp only [List.mem_map] at hmem
        obtain ⟨q, hq, hqe⟩ := hmem
        rw [List.mem_mergeSort] at hq
        have hsnd := attachKeys_map_snd _ ks hks
        subst hqe
        apply mem_filterMap_parseEntry
        rw [← hsnd]
        exact List.mem_map_of_mem Prod.snd hq

/-- Sample store with every collection empty (the state of a fresh Redis
database). -/
def store0 : Store := ⟨fun _ => [], fun _ => []⟩

/-- Sample datetimes one, two and three seconds after the epoch. -/
def dtE1 : Datetime := ⟨1970, 1, 1, 0, 0, 1, 0⟩

def dtE2 : Datetime := ⟨1970, 1, 1, 0, 0, 2, 0⟩

def dtE3 : Datetime := ⟨1970, 1, 1, 0, 0, 3, 0⟩

theorem timestamp_whole (dt : Datetime) (hus : dt.microsecond = 0) :
    dt.timestamp = ((daysFromCivil dt.year dt.month dt.day * 86400 +
      dt.hour * 3600 + dt.minute * 60 + dt.second : Int) : Rat) := by
  unfold Datetime.timestamp
  rw [hus]
  norm_num

theorem timestamp_dtE1 : dtE1.timestamp = 1 := by
  rw [timestamp_whole dtE1 rfl]
  simp only [dtE1]
  norm_num [show daysFromCivil 1970 1 1 = 0 from by decide]

theorem timestamp_dtE2 : dtE2.timestamp = 2 := by
  rw [timestamp_whole dtE2 rfl]
  simp only [dtE2]
  norm_num [show daysFromCivil 1970 1 1 = 0 from by decide]

theorem timestamp_dtE3 : dtE3.timestamp = 3 := by
  rw [timestamp_whole dtE3 rfl]
  simp only [dtE3]
  norm_num [show daysFromCivil 1970 1 1 = 0 from by decide]

/-- C10: with the store connection unavailable (redis_conn is None), every
operation returns its failure default without touching the store:
add_or_update_order, store_user_message and delete_order_for_user return
false, and get_orders_for_day and get_user_messages_desc return the empty
list. -/
theorem claim_C10 (fail : Bool) (today name food date text : String)
    (uid : Int) (t : Datetime) (cnt : Int) :
    add_or_update_order none fail today name food t = (none, false) ∧
    get_orders_for_day none fail date = [] ∧
    delete_order_for_user none fail name date = (none, false) ∧
    store_user_message none fail uid text t = (none, false) ∧
    get_user_messages_desc none fail uid cnt = [] :=
  ⟨rfl, rfl, rfl, rfl, rfl⟩

/-- C1: upserting an order twice on the same day for the same owner leaves
exactly one hash field for that owner in the day's hash, and it holds the
payload of the second call (last-write-wins overwrite). -/
theorem claim_C1 (st : Store) (today name f1 f2 : String) (t1 t2 : Datetime)
    (hnd : ((st.hashes (get_order_key_for_date today)).map Prod.fst).Nodup) :
    ∃ st2,
      (add_or_update_order
        (add_or_update_order (some st) false today name f1 t1).1
        false today name f2 t2).1 = some st2 ∧
      (st2.hashes (get_order_key_for_date today)).filter
        (fun p => p.1 == name) = [(name, orderPayload f2 t2)] ∧
      alookup (st2.hashes (get_order_key_for_date today)) name =
        some (orderPayload f2 t2) := by
  refine ⟨_, rfl, ?_, ?_⟩
  · simp only [Function.update_same]
    exact filter_upsertEntry_self _ name _ (nodup_upsertEntry _ name _ hnd)
  · simp only [Function.update_same]
    exact alookup_upsertEntry_self _ name _

theorem claim_C1_witness :
    ((store0.hashes (get_order_key_for_date "2024-05-06")).map Prod.fst).Nodup ∧
    (∃ st2,
      (add_or_update_order
        (add_or_update_order (some store0) false "2024-05-06" "alice" "pizza" dtE1).1
        false "2024-05-06" "alice" "pasta" dtE2).1 = some st2 ∧
      (st2.hashes (get_order_key_for_date "2024-05-06")).filter
        (fun p => p.1 == "alice") = [("alice", orderPayload "pasta" dtE2)] ∧
      alookup (st2.hashes (get_order_key_for_date "2024-05-06")) "alice" =
        some (orderPayload "pasta" dtE2)) :=
  ⟨by simp [store0],
   claim_C1 store0 "2024-05-06" "alice" "pizza" "pasta" dtE1 dtE2 (by simp [store0])⟩

/-- C8: a successful upsert for owner A on one day changes only the field A
of that day's hash: any other owner's field of that day, any other key's
hash, and all sorted sets are unchanged. -/
theorem claim_C8 (st : Store) (today A food : String) (t : Datetime)
    (B k : String) (hB : B ≠ A) (hk : k ≠ get_order_key_for_date today) :
    ∃ st2, add_or_update_order (some st) false today A food t = (some st2, true) ∧
      alookup (st2.hashes (get_order_key_for_date today)) B =
        alookup (st.hashes (get_order_key_for_date today)) B ∧
      st2.hashes k = st.hashes k ∧
      st2.zsets = st.zsets := by
  refine ⟨_, rfl, ?_, ?_, rfl⟩
  · simp only [Function.update_same]
    exact alookup_upsertEntry_ne _ A B _ hB
  · exact Function.update_noteq hk _ _

theorem claim_C8_witness :
    ("bob" ≠ "alice") ∧ ("other_key" ≠ get_order_key_for_date "2024-05-06") ∧
    (∃ st2, add_or_update_order (some store0) false "2024-05-06" "alice" "pizza" dtE1 =
        (some st2, true) ∧
      alookup (st2.hashes (get_order_key_for_date "2024-05-06")) "bob" =
        alookup (store0.hashes (get_order_key_for_date "2024-05-06")) "bob" ∧
      st2.hashes "other_key" = store0.hashes "other_key" ∧
      st2.zsets = store0.zsets) :=
  ⟨by decide, by decide,
   claim_C8 store0 "2024-05-06" "alice" "pizza" dtE1 "bob" "other_key"
     (by decide) (by decide)⟩

/-- C4: storing the same message text twice for one user leaves exactly one
member for that text in the user's sorted set, and its score is the Unix
timestamp of the second send time (updated, never duplicated). -/
theorem claim_C4 (st : Store) (uid : Int) (text : String) (t1 t2 : Datetime)
    (hnd : ((st.zsets (get_messages_key_for_user uid)).map Prod.fst).Nodup)
    (hlt : t1.timestamp < t2.timestamp) :
    ∃ st2,
      (store_user_message
        (store_user_message (some st) false uid text t1).1
        false uid text t2).1 = some st2 ∧
      (st2.zsets (get_messages_key_for_user uid)).filter
        (fun p => p.1 == text) = [(text, t2.timestamp)] ∧
      alookup (st2.zsets (get_messages_key_for_user uid)) text =
        some t2.timestamp := by
  refine ⟨_, rfl, ?_, ?_⟩
  · simp only [Function.update_same]
    exact filter_upsertEntry_self _ text _ (nodup_upsertEntry _ text _ hnd)
  · simp only [Function.update_same]
    exact alookup_upsertEntry_self _ text _

theorem claim_C4_witness :
    ((store0.zsets (get_messages_key_for_user 1)).map Prod.fst).Nodup ∧
    dtE1.timestamp < dtE2.timestamp ∧
    (∃ st2,
      (store_user_message
        (store_user_message (some store0) false 1 "hello" dtE1).1
        false 1 "hello" dtE2).1 = some st2 ∧
      (st2.zsets (get_messages_key_for_user 1)).filter
        (fun p => p.1 == "hello") = [("hello", dtE2.timestamp)] ∧
      alookup (st2.zsets (get_messages_key_for_user 1)) "hello" =
        some dtE2.timestamp) :=
  ⟨by simp [store0],
   by rw [timestamp_dtE1, timestamp_dtE2]; norm_num,
   claim_C4 store0 1 "hello" dtE1 dtE2 (by simp [store0])
     (by rw [timestamp_dtE1, timestamp_dtE2]; norm_num)⟩

/-- C5: remove_order returns true exactly when a field for that owner is
present in the day's hash (false when absent and false when the HDEL call
fails); after the removal the owner no longer appears in the day's listing
and an immediately repeated removal returns false. -/
theorem claim_C5 (st : Store) (name date : String) :
    ((delete_order_for_user (some st) false name date).2 = true ↔
      (alookup (st.hashes (get_order_key_for_date date)) name).isSome = true) ∧
    (delete_order_for_user (some st) true name date).2 = false ∧
    name ∉ (get_orders_for_day
      (delete_order_for_user (some st) false name date).1 false date).map
        OrderEntry.username ∧
    (delete_order_for_user
      (delete_order_for_user (some st) false name date).1 false name date).2 =
      false := by
  refine ⟨?_, rfl, ?_, ?_⟩
  · simp only [delete_order_for_user, Bool.false_eq_true, if_false,
      decide_eq_true_eq]
    exact countP_fst_pos_iff _ name
  · intro hm
    rw [List.mem_map] at hm
    obtain ⟨e, he, hu⟩ := hm
    have := mem_get_orders_username _ false date e he
    rw [hu] at this
    simp only [Function.update_same] at this
    exact not_mem_fst_filter_ne _ name this
  · simp only [delete_order_for_user, Bool.false_eq_true, if_false,
      Function.update_same, countP_filter_ne]
    simp

/-- C7: serializing an order payload as add_or_update_order does, then
deserializing it as get_orders_for_day does, recovers the original food
text and the original timestamp at the full stored ISO-8601 precision. -/
theorem claim_C7 (name food : String) (t : Datetime) (hf : food ≠ "")
    (hv : t.Valid) :
    parseEntry name (orderPayload food t) =
      some ⟨name, Json.str food, some (Json.str t.isoformat)⟩ ∧
    Datetime.fromisoformat t.isoformat = some t := by
  constructor
  · simp [parseEntry, orderPayload, jsonGet, alookup]
  · exact fromisoformat_isoformat t hv

theorem claim_C7_witness :
    ("pizza" : String) ≠ "" ∧ dtE1.Valid ∧
    (parseEntry "alice" (orderPayload "pizza" dtE1) =
      some ⟨"alice", Json.str "pizza", some (Json.str dtE1.isoformat)⟩ ∧
    Datetime.fromisoformat dtE1.isoformat = some dtE1) :=
  ⟨by decide, by decide, claim_C7 "alice" "pizza" dtE1 (by decide) (by decide)⟩

/-- A well-formed stored order payload. -/
def goodBlob : Blob := Blob.json (Json.obj
  [("food", Json.str "pizza"), ("timestamp_iso", Json.str "2024-01-02T10:00:00")])

/-- A payload whose JSON parses to an object but whose timestamp field is a
present, truthy, malformed string. -/
def badTsBlob : Blob := Blob.json (Json.obj
  [("food", Json.str "pasta"), ("timestamp_iso", Json.str "garbage")])

/-- A store whose hash for 2024-01-02 holds one good record (alice) and one
record with a malformed timestamp string (bob). -/
def stBad : Store :=
  ⟨Function.update (fun _ => []) (get_order_key_for_date "2024-01-02")
     [("alice", goodBlob), ("bob", badTsBlob)],
   fun _ => []⟩

/-- C2 counterexample: with exactly one record whose payload has a present
but malformed timestamp string, the whole listing comes back empty even
though the other record deserializes fine; the bad record is not merely
omitted, contradicting the claim. -/
theorem claim_C2_counterexample :
    get_orders_for_day (some stBad) false "2024-01-02" = [] ∧
    parseEntry "alice" goodBlob =
      some ⟨"alice", Json.str "pizza", some (Json.str "2024-01-02T10:00:00")⟩ ∧
    Datetime.fromisoformat "2024-01-02T10:00:00" =
      some ⟨2024, 1, 2, 10, 0, 0, 0⟩ :=
  ⟨rfl, rfl, rfl⟩

theorem length_filterMap_of_all {α β : Type} (l : List α) (f : α → Option β)
    (h : ∀ a ∈ l, (f a).isSome) : (l.filterMap f).length = l.length := by
  induction l with
  | nil => rfl
  | cons a rest ih =>
    obtain ⟨b, hb⟩ := Option.isSome_iff_exists.mp (h a (by simp))
    simp [List.filterMap_cons, hb, ih (fun a' ha' => h a' (by simp [ha']))]

/-- C2 amended: when exactly one record's payload fails JSON
deserialization (json.loads raises, or the parsed value is not an object)
and every other record deserializes with a computable sort key, the listing
returns exactly the other records and omits only that one.  (A record that
parses as a JSON object but carries a present, truthy, malformed timestamp
string instead empties the whole listing, as the counterexample shows.) -/
theorem claim_C2_amended (st : Store) (date f0 : String) (b0 : Blob)
    (h1 h2 : List (String × Blob))
    (hsplit : st.hashes (get_order_key_for_date date) = h1 ++ (f0, b0) :: h2)
    (hbad : parseEntry f0 b0 = none)
    (hgood : ∀ p ∈ h1 ++ h2,
      ∃ e, parseEntry p.1 p.2 = some e ∧ (sortKey e).isSome) :
    (get_orders_for_day (some st) false date).Perm
      ((h1 ++ h2).filterMap (fun p => parseEntry p.1 p.2)) ∧
    (get_orders_for_day (some st) false date).length =
      h1.length + h2.length := by
  have hent : (st.hashes (get_order_key_for_date date)).filterMap
      (fun p => parseEntry p.1 p.2) =
      (h1 ++ h2).filterMap (fun p => parseEntry p.1 p.2) := by
    rw [hsplit, List.filterMap_append, List.filterMap_cons, hbad,
      List.filterMap_append]
  have hall : ∀ e ∈ (st.hashes (get_order_key_for_date date)).filterMap
      (fun p => parseEntry p.1 p.2), (sortKey e).isSome := by
    rw [hent]
    intro e he
    rw [List.mem_filterMap] at he
    obtain ⟨p, hp, hpe⟩ := he
    obtain ⟨e', he', hk⟩ := hgood p hp
    rw [hpe] at he'
    cases he'
    exact hk
  obtain ⟨ks, hks⟩ := attachKeys_of_all _ hall
  have hne : ¬ ((st.hashes (get_order_key_for_date date)).isEmpty = true) := by
    rw [hsplit]
    cases h1 <;> simp [List.isEmpty]
  have hres : get_orders_for_day (some st) false date =
      (List.mergeSort ks (fun a b => decide (a.1 ≤ b.1))).map Prod.snd := by
    simp only [get_orders_for_day, Bool.false_eq_true, if_false, if_neg hne, hks]
  have hperm : (get_orders_for_day (some st) false date).Perm
      ((h1 ++ h2).filterMap (fun p => parseEntry p.1 p.2)) := by
    rw [hres, ← hent, ← attachKeys_map_snd _ ks hks]
    exact (List.mergeSort_perm ks _).map Prod.snd
  refine ⟨hperm, ?_⟩
  rw [hperm.length_eq, ← hent, hent,
    length_filterMap_of_all _ _ (fun p hp => (hgood p hp).elim
      (fun e he => by rw [he.1]; rfl)), List.length_append]

/-- A store whose hash for 2024-01-02 holds one good record (alice) and one
record whose payload fails json.loads (carol). -/
def stC2 : Store :=
  ⟨Function.update (fun _ => []) (get_order_key_for_date "2024-01-02")
     [("alice", goodBlob), ("carol", Blob.malformed)],
   fun _ => []⟩

theorem claim_C2_amended_witness :
    (stC2.hashes (get_order_key_for_date "2024-01-02") =
      [("alice", goodBlob)] ++ ("carol", Blob.malformed) :: []) ∧
    parseEntry "carol" Blob.malformed = none ∧
    (∀ p ∈ [("alice", goodBlob)] ++ ([] : List (String × Blob)),
      ∃ e, parseEntry p.1 p.2 = some e ∧ (sortKey e).isSome) ∧
    ((get_orders_for_day (some stC2) false "2024-01-02").Perm
      (([("alice", goodBlob)] ++ ([] : List (String × Blob))).filterMap
        (fun p => parseEntry p.1 p.2)) ∧
    (get_orders_for_day (some stC2) false "2024-01-02").length = 1 + 0) :=
  ⟨rfl, rfl,
   by
     intro p hp
     simp only [List.append_nil, List.mem_singleton] at hp
     subst hp
     exact ⟨⟨"alice", Json.str "pizza", some (Json.str "2024-01-02T10:00:00")⟩,
       rfl, rfl⟩,
   claim_C2_amended stC2 "2024-01-02" "carol" Blob.malformed
     [("alice", goodBlob)] [] rfl rfl
     (by
       intro p hp
       simp only [List.append_nil, List.mem_singleton] at hp
       subst hp
       exact ⟨⟨"alice", Json.str "pizza", some (Json.str "2024-01-02T10:00:00")⟩,
         rfl, rfl⟩)⟩

theorem sortKey_min_le (e : OrderEntry) (k : Nat) (h : sortKey e = some k) :
    Datetime.min.code ≤ k := by
  obtain ⟨u, f, ts⟩ := e
  cases ts with
  | none =>
    simp only [sortKey, Option.some.injEq] at h
    omega
  | some j =>
    simp only [sortKey] at h
    by_cases htr : jsonTruthy j
    · rw [if_pos htr] at h
      split at h
      · rename_i s
        cases hfi : Datetime.fromisoformat s with
        | none => rw [hfi] at h; simp at h
        | some d =>
          rw [hfi] at h
          simp only [Option.map_some', Option.some.injEq] at h
          have := min_code_le d (fromisoformat_valid s d hfi)
          omega
      · simp at h
    · rw [Bool.not_eq_true] at htr
      rw [if_neg (by simp [htr])] at h
      simp only [Option.some.injEq] at h
      omega

/-- C3: when every payload of the day's hash deserializes and every sort
key computes, the listing returns exactly the parsed records (a permutation
of them, one per stored field) sorted ascending by sort key; a record whose
timestamp is missing gets the key of datetime.min, and that key bounds
every record's key from below, so such records sort first. -/
theorem claim_C3 (st : Store) (date : String)
    (hparse : ∀ p ∈ st.hashes (get_order_key_for_date date),
      ∃ e, parseEntry p.1 p.2 = some e)
    (hkey : ∀ e ∈ (st.hashes (get_order_key_for_date date)).filterMap
      (fun p => parseEntry p.1 p.2), (sortKey e).isSome) :
    (get_orders_for_day (some st) false date).Perm
      ((st.hashes (get_order_key_for_date date)).filterMap
        (fun p => parseEntry p.1 p.2)) ∧
    (get_orders_for_day (some st) false date).length =
      (st.hashes (get_order_key_for_date date)).length ∧
    (get_orders_for_day (some st) false date).Pairwise
      (fun a b => (sortKey a).getD 0 ≤ (sortKey b).getD 0) ∧
    (∀ e ∈ get_orders_for_day (some st) false date,
      e.timestamp_iso = none → sortKey e = some Datetime.min.code) ∧
    (∀ e ∈ get_orders_for_day (some st) false date,
      Datetime.min.code ≤ (sortKey e).getD 0) := by
  by_cases hne : (st.hashes (get_order_key_for_date date)).isEmpty
  · have hnil : st.hashes (get_order_key_for_date date) = [] :=
      List.isEmpty_iff.mp hne
    have hres : get_orders_for_day (some st) false date = [] := by
      simp [get_orders_for_day, hne]
    rw [hres, hnil]
    exact ⟨by simp only [List.filterMap_nil]; exact List.Perm.refl _,
      by simp, by simp, by simp, by simp⟩
  · obtain ⟨ks, hks⟩ := attachKeys_of_all _ hkey
    have hres : get_orders_for_day (some st) false date =
        (List.mergeSort ks (fun a b => decide (a.1 ≤ b.1))).map Prod.snd := by
      simp only [get_orders_for_day, Bool.false_eq_true, if_false,
        if_neg hne, hks]
    have hsnd := attachKeys_map_snd _ ks hks
    have hperm : (get_orders_for_day (some st) false date).Perm
        ((st.hashes (get_order_key_for_date date)).filterMap
          (fun p => parseEntry p.1 p.2)) := by
      rw [hres, ← hsnd]
      exact (List.mergeSort_perm ks _).map Prod.snd
    refine ⟨hperm, ?_, ?_, ?_, ?_⟩
    · rw [hperm.length_eq]
      exact length_filterMap_of_all _ _ (fun p hp => by
        obtain ⟨e, he⟩ := hparse p hp
        rw [he]
        rfl)
    · rw [hres, List.pairwise_map]
      have htrans : ∀ (a b c : Nat × OrderEntry),
          decide (a.1 ≤ b.1) = true → decide (b.1 ≤ c.1) = true →
          decide (a.1 ≤ c.1) = true := by
        intro a b c hab hbc
        simp only [decide_eq_true_eq] at *
        omega
      have htotal : ∀ (a b : Nat × OrderEntry),
          (decide (a.1 ≤ b.1) || decide (b.1 ≤ a.1)) = true := by
        intro a b
        simp only [Bool.or_eq_true, decide_eq_true_eq]
        omega
      have hsorted := List.sorted_mergeSort htrans htotal ks
      refine List.Pairwise.imp_of_mem ?_ hsorted
      intro a b ha hb hab
      have hka := attachKeys_mem_key _ ks a hks (List.mem_mergeSort.mp ha)
      have hkb := attachKeys_mem_key _ ks b hks (List.mem_mergeSort.mp hb)
      rw [hka, hkb]
      simp only [Option.getD_some]
      simpa using hab
    · intro e _ hts
      simp [sortKey, hts]
    · intro e he
      have hem := (hperm.mem_iff).mp he
      obtain ⟨k, hk⟩ := Option.isSome_iff_exists.mp (hkey e hem)
      rw [hk]
      simpa using sortKey_min_le e k hk

/-- A store whose hash for 2024-01-02 holds a single well-formed record. -/
def stGood : Store :=
  ⟨Function.update (fun _ => []) (get_order_key_for_date "2024-01-02")
     [("alice", goodBlob)],
   fun _ => []⟩

theorem claim_C3_witness :
    (∀ p ∈ stGood.hashes (get_order_key_for_date "2024-01-02"),
      ∃ e, parseEntry p.1 p.2 = some e) ∧
    (∀ e ∈ (stGood.hashes (get_order_key_for_date "2024-01-02")).filterMap
      (fun p => parseEntry p.1 p.2), (sortKey e).isSome) ∧
    ((get_orders_for_day (some stGood) false "2024-01-02").Perm
      ((stGood.hashes (get_order_key_for_date "2024-01-02")).filterMap
        (fun p => parseEntry p.1 p.2)) ∧
    (get_orders_for_day (some stGood) false "2024-01-02").length =
      (stGood.hashes (get_order_key_for_date "2024-01-02")).length ∧
    (get_orders_for_day (some stGood) false "2024-01-02").Pairwise
      (fun a b => (sortKey a).getD 0 ≤ (sortKey b).getD 0) ∧
    (∀ e ∈ get_orders_for_day (some stGood) false "2024-01-02",
      e.timestamp_iso = none → sortKey e = some Datetime.min.code) ∧
    (∀ e ∈ get_orders_for_day (some stGood) false "2024-01-02",
      Datetime.min.code ≤ (sortKey e).getD 0)) := by
  have hp : ∀ p ∈ stGood.hashes (get_order_key_for_date "2024-01-02"),
      ∃ e, parseEntry p.1 p.2 = some e := by
    intro p hp
    rw [show stGood.hashes (get_order_key_for_date "2024-01-02") =
      [("alice", goodBlob)] from rfl, List.mem_singleton] at hp
    subst hp
    exact ⟨⟨"alice", Json.str "pizza", some (Json.str "2024-01-02T10:00:00")⟩, rfl⟩
  have hk : ∀ e ∈ (stGood.hashes (get_order_key_for_date "2024-01-02")).filterMap
      (fun p => parseEntry p.1 p.2), (sortKey e).isSome := by
    intro e he
    rw [show (stGood.hashes (get_order_key_for_date "2024-01-02")).filterMap
        (fun p => parseEntry p.1 p.2) =
        [⟨"alice", Json.str "pizza", some (Json.str "2024-01-02T10:00:00")⟩]
      from rfl, List.mem_singleton] at he
    subst he
    rfl
  exact ⟨hp, hk, claim_C3 stGood "2024-01-02" hp hk⟩

theorem zle_le (a b : String × Rat) (h : zle a b = true) : a.2 ≤ b.2 := by
  unfold zle at h
  simp only [Bool.or_eq_true, Bool.and_eq_true, decide_eq_true_eq] at h
  rcases h with h | ⟨h, _⟩
  · exact le_of_lt h
  · exact le_of_eq h

theorem zle_trans : ∀ (a b c : String × Rat),
    zle a b = true → zle b c = true → zle a c = true := by
  intro a b c h1 h2
  unfold zle at *
  simp only [Bool.or_eq_true, Bool.and_eq_true, decide_eq_true_eq] at *
  rcases h1 with h1 | ⟨h1e, h1s⟩ <;> rcases h2 with h2 | ⟨h2e, h2s⟩
  · exact Or.inl (lt_trans h1 h2)
  · exact Or.inl (h2e ▸ h1)
  · exact Or.inl (h1e ▸ h2)
  · exact Or.inr ⟨h1e.trans h2e, le_trans h1s h2s⟩

theorem zle_total : ∀ (a b : String × Rat),
    (zle a b || zle b a) = true := by
  intro a b
  unfold zle
  simp only [Bool.or_eq_true, Bool.and_eq_true, decide_eq_true_eq]
  rcases lt_trichotomy a.2 b.2 with h | h | h
  · exact Or.inl (Or.inl h)
  · rcases le_total a.1 b.1 with hs | hs
    · exact Or.inl (Or.inr ⟨h, hs⟩)
    · exact Or.inr (Or.inr ⟨h.symm, hs⟩)
  · exact Or.inr (Or.inl h)

/-- Every selection returned by ZREVRANGE is ordered by descending score. -/
theorem zrevrange_sorted_desc (zs : List (String × Rat)) (start stop : Int) :
    (zrevrange zs start stop).Pairwise (fun a b => b.2 ≤ a.2) := by
  have hs := List.sorted_mergeSort zle_trans zle_total zs
  have hle : (List.mergeSort zs zle).Pairwise (fun a b => a.2 ≤ b.2) :=
    hs.imp (fun hab => zle_le _ _ hab)
  have hrev : ((List.mergeSort zs zle).reverse).Pairwise
      (fun a b => b.2 ≤ a.2) := List.pairwise_reverse.mpr hle
  simp only [zrevrange]
  repeat' split
  all_goals
    first
    | exact hrev.sublist ((List.take_sublist _ _).trans (List.drop_sublist _ _))
    | exact List.Pairwise.nil

/-- Every pair returned by ZREVRANGE is a member of the sorted set. -/
theorem zrevrange_mem (zs : List (String × Rat)) (start stop : Int)
    (p : String × Rat) (h : p ∈ zrevrange zs start stop) : p ∈ zs := by
  simp only [zrevrange] at h
  repeat' split at h
  all_goals
    first
    | exact List.mem_mergeSort.mp
        (List.mem_reverse.mp (List.mem_of_mem_drop (List.mem_of_mem_take h)))
    | simp at h

/-- ZREVRANGE with start 0 and stop -1 selects the whole sorted set in
descending order. -/
theorem zrevrange_all (zs : List (String × Rat)) :
    zrevrange zs 0 (-1) = (zs.mergeSort zle).reverse := by
  have h1 : ((0 : Int) < 0) = False := by norm_num
  have h2 : ((-1 : Int) < 0) = True := by norm_num
  simp only [zrevrange, h1, h2, if_false, if_true, Int.toNat_zero,
    List.drop_zero]
  split
  · rename_i hcond
    have harith : (((zs.mergeSort zle).reverse.length : Int) + -1 - 0 + 1).toNat =
        (zs.mergeSort zle).reverse.length := by omega
    rw [harith, List.take_length]
  · rename_i hcond
    have hlen : (zs.mergeSort zle).reverse.length = 0 := by omega
    exact (List.eq_nil_of_length_eq_zero hlen).symm

theorem fromtimestamp_dtE2 : Datetime.fromtimestamp 2 = some dtE2 := by
  have h : ((2 : Rat) * 1000000) = ((2000000 : Int) : Rat) := by norm_num
  unfold Datetime.fromtimestamp
  rw [h, round_intCast]
  decide

theorem fromtimestamp_dtE3 : Datetime.fromtimestamp 3 = some dtE3 := by
  have h : ((3 : Rat) * 1000000) = ((3000000 : Int) : Rat) := by norm_num
  unfold Datetime.fromtimestamp
  rw [h, round_intCast]
  decide

theorem zrevrange_length_le (zs : List (String × Rat)) (limit : Int)
    (hl : 1 ≤ limit) :
    (zrevrange zs 0 (limit - 1)).length ≤ limit.toNat := by
  have h1 : ((0 : Int) < 0) = False := by norm_num
  have h2 : (limit - 1 < 0) = False := by simp; omega
  simp only [zrevrange, h1, h2, if_false, Int.toNat_zero, List.drop_zero]
  split
  · exact le_trans (List.length_take_le _ _) (by omega)
  · simp

theorem zle_example12 : zle ("m1", (1 : Rat)) ("m2", 2) = true := by
  simp only [zle, Bool.or_eq_true, Bool.and_eq_true, decide_eq_true_eq]
  left
  norm_num

theorem zle_example13 : zle ("m1", (1 : Rat)) ("m3", 3) = true := by
  simp only [zle, Bool.or_eq_true, Bool.and_eq_true, decide_eq_true_eq]
  left
  norm_num

theorem zle_example23 : zle ("m2", (2 : Rat)) ("m3", 3) = true := by
  simp only [zle, Bool.or_eq_true, Bool.and_eq_true, decide_eq_true_eq]
  left
  norm_num

theorem zrevrange_example :
    zrevrange [("m1", (1 : Rat)), ("m2", 2), ("m3", 3)] 0 1 =
      [("m3", 3), ("m2", 2)] := by
  have hsorted : ([("m1", (1 : Rat)), ("m2", 2), ("m3", 3)]).Pairwise
      (fun a b => zle a b = true) := by
    refine List.Pairwise.cons ?_ (List.Pairwise.cons ?_
      (List.Pairwise.cons (by simp) List.Pairwise.nil))
    · intro b hb
      rcases List.mem_cons.mp hb with h | h
      · subst h; exact zle_example12
      · rw [List.mem_singleton] at h; subst h; exact zle_example13
    · intro b hb
      rw [List.mem_singleton] at hb; subst hb; exact zle_example23
  simp only [zrevrange]
  rw [List.mergeSort_of_sorted hsorted]
  norm_num
  rfl

/-- C6: with a positive limit the message listing returns at most limit
pairs; the selected range is ordered by descending score; every returned
pair is a stored member together with its score converted back through
fromtimestamp; and in the concrete three-message scenario at strictly
increasing times, limit 2 returns exactly the two most recent messages,
newest first. -/
theorem claim_C6 (st : Store) (uid : Int) (limit : Int) (hl : 1 ≤ limit) :
    (get_user_messages_desc (some st) false uid limit).length ≤ limit.toNat ∧
    (zrevrange (st.zsets (get_messages_key_for_user uid)) 0 (limit - 1)).Pairwise
      (fun a b => b.2 ≤ a.2) ∧
    (∀ q ∈ get_user_messages_desc (some st) false uid limit,
      ∃ score, (q.1, score) ∈ st.zsets (get_messages_key_for_user uid) ∧
        Datetime.fromtimestamp score = some q.2) ∧
    get_user_messages_desc
      (store_user_message
        (store_user_message
          (store_user_message (some store0) false 7 "m1" dtE1).1
          false 7 "m2" dtE2).1
        false 7 "m3" dtE3).1
      false 7 2 = [("m3", dtE3), ("m2", dtE2)] := by
  have hres : get_user_messages_desc (some st) false uid limit =
      (zrevrange (st.zsets (get_messages_key_for_user uid)) 0 (limit - 1)).filterMap
        (fun p => (Datetime.fromtimestamp p.2).map (fun d => (p.1, d))) := rfl
  refine ⟨?_, zrevrange_sorted_desc _ _ _, ?_, ?_⟩
  · rw [hres]
    exact le_trans (List.length_filterMap_le _ _)
      (zrevrange_length_le _ limit hl)
  · intro q hq
    rw [hres] at hq
    rw [List.mem_filterMap] at hq
    obtain ⟨p, hp, hconv⟩ := hq
    rw [Option.map_eq_some'] at hconv
    obtain ⟨d, hd, hpd⟩ := hconv
    refine ⟨p.2, ?_, ?_⟩
    · rw [← hpd]
      exact zrevrange_mem _ _ _ p hp
    · rw [hd, ← hpd]
  · have hkey : (store_user_message
        (store_user_message
          (store_user_message (some store0) false 7 "m1" dtE1).1
          false 7 "m2" dtE2).1
        false 7 "m3" dtE3).1 = some
          ⟨store0.hashes,
           Function.update store0.zsets (get_messages_key_for_user 7)
             [("m1", dtE1.timestamp), ("m2", dtE2.timestamp),
              ("m3", dtE3.timestamp)]⟩ := by
      simp only [store_user_message, Bool.false_eq_true, if_false,
        Function.update_same, Function.update_idem]
      simp [upsertEntry, store0]
    rw [hkey]
    have hzs : (⟨store0.hashes,
        Function.update store0.zsets (get_messages_key_for_user 7)
          [("m1", dtE1.timestamp), ("m2", dtE2.timestamp),
           ("m3", dtE3.timestamp)]⟩ : Store).zsets (get_messages_key_for_user 7) =
        [("m1", (1 : Rat)), ("m2", 2), ("m3", 3)] := by
      rw [show (⟨store0.hashes,
        Function.update store0.zsets (get_messages_key_for_user 7)
          [("m1", dtE1.timestamp), ("m2", dtE2.timestamp),
           ("m3", dtE3.timestamp)]⟩ : Store).zsets =
        Function.update store0.zsets (get_messages_key_for_user 7)
          [("m1", dtE1.timestamp), ("m2", dtE2.timestamp),
           ("m3", dtE3.timestamp)] from rfl]
      rw [Function.update_same, timestamp_dtE1, timestamp_dtE2, timestamp_dtE3]
    show ((zrevrange ((⟨store0.hashes,
        Function.update store0.zsets (get_messages_key_for_user 7)
          [("m1", dtE1.timestamp), ("m2", dtE2.timestamp),
           ("m3", dtE3.timestamp)]⟩ : Store).zsets (get_messages_key_for_user 7))
        0 (2 - 1)).filterMap
        (fun p => (Datetime.fromtimestamp p.2).map (fun d => (p.1, d)))) =
      [("m3", dtE3), ("m2", dtE2)]
    rw [hzs, show ((2 : Int) - 1) = 1 from rfl, zrevrange_example]
    simp [List.filterMap_cons, fromtimestamp_dtE2, fromtimestamp_dtE3]

theorem claim_C6_witness :
    (1 : Int) ≤ 2 ∧
    ((get_user_messages_desc (some store0) false 1 2).length ≤ (2 : Int).toNat ∧
    (zrevrange (store0.zsets (get_messages_key_for_user 1)) 0 (2 - 1)).Pairwise
      (fun a b => b.2 ≤ a.2) ∧
    (∀ q ∈ get_user_messages_desc (some store0) false 1 2,
      ∃ score, (q.1, score) ∈ store0.zsets (get_messages_key_for_user 1) ∧
        Datetime.fromtimestamp score = some q.2) ∧
    get_user_messages_desc
      (store_user_message
        (store_user_message
          (store_user_message (some store0) false 7 "m1" dtE1).1
          false 7 "m2" dtE2).1
        false 7 "m3" dtE3).1
      false 7 2 = [("m3", dtE3), ("m2", dtE2)]) :=
  ⟨by decide, claim_C6 store0 1 2 (by decide)⟩

theorem map_fst_filterMap_conv (l : List (String × Rat))
    (h : ∀ p ∈ l, (Datetime.fromtimestamp p.2).isSome) :
    (l.filterMap
      (fun p => (Datetime.fromtimestamp p.2).map (fun d => (p.1, d)))).map
      Prod.fst = l.map Prod.fst := by
  induction l with
  | nil => rfl
  | cons p rest ih =>
    obtain ⟨d, hd⟩ := Option.isSome_iff_exists.mp (h p (by simp))
    simp [List.filterMap_cons, hd, ih (fun q hq => h q (by simp [hq]))]

/-- C9: count 0 turns the range query into ZREVRANGE 0 -1, which selects
the whole sorted set, so (when every stored score converts back) the call
returns every message stored in the user's archive, not an empty list or an
error. -/
theorem claim_C9 (st : Store) (uid : Int)
    (hconv : ∀ p ∈ st.zsets (get_messages_key_for_user uid),
      (Datetime.fromtimestamp p.2).isSome) :
    (get_user_messages_desc (some st) false uid 0).length =
      (st.zsets (get_messages_key_for_user uid)).length ∧
    ((get_user_messages_desc (some st) false uid 0).map Prod.fst).Perm
      ((st.zsets (get_messages_key_for_user uid)).map Prod.fst) := by
  have hres : get_user_messages_desc (some st) false uid 0 =
      ((st.zsets (get_messages_key_for_user uid)).mergeSort zle).reverse.filterMap
        (fun p => (Datetime.fromtimestamp p.2).map (fun d => (p.1, d))) := by
    show (zrevrange (st.zsets (get_messages_key_for_user uid)) 0 (0 - 1)).filterMap
      (fun p => (Datetime.fromtimestamp p.2).map (fun d => (p.1, d))) = _
    rw [show ((0 : Int) - 1) = -1 from rfl, zrevrange_all]
  have hallrev : ∀ p ∈ ((st.zsets (get_messages_key_for_user uid)).mergeSort
      zle).reverse,
      ((Datetime.fromtimestamp p.2).map (fun d => (p.1, d))).isSome := by
    intro p hp
    have hmem : p ∈ st.zsets (get_messages_key_for_user uid) :=
      List.mem_mergeSort.mp (List.mem_reverse.mp hp)
    obtain ⟨d, hd⟩ := Option.isSome_iff_exists.mp (hconv p hmem)
    rw [hd]
    rfl
  constructor
  · rw [hres, length_filterMap_of_all _ _ hallrev, List.length_reverse,
      List.length_mergeSort]
  · rw [hres, map_fst_filterMap_conv _ (fun p hp => by
      have hmem : p ∈ st.zsets (get_messages_key_for_user uid) :=
        List.mem_mergeSort.mp (List.mem_reverse.mp hp)
      exact hconv p hmem)]
    rw [List.map_reverse]
    exact (List.reverse_perm _).trans
      ((List.mergeSort_perm _ zle).map Prod.fst)

/-- Sample store with one archived message for user 1. -/
def stMsg : Store :=
  ⟨fun _ => [],
   Function.update (fun _ => []) (get_messages_key_for_user 1)
     [("hello", 2)]⟩

theorem claim_C9_witness :
    (∀ p ∈ stMsg.zsets (get_messages_key_for_user 1),
      (Datetime.fromtimestamp p.2).isSome) ∧
    ((get_user_messages_desc (some stMsg) false 1 0).length =
      (stMsg.zsets (get_messages_key_for_user 1)).length ∧
    ((get_user_messages_desc (some stMsg) false 1 0).map Prod.fst).Perm
      ((stMsg.zsets (get_messages_key_for_user 1)).map Prod.fst)) := by
  have hc : ∀ p ∈ stMsg.zsets (get_messages_key_for_user 1),
      (Datetime.fromtimestamp p.2).isSome := by
    intro p hp
    rw [show stMsg.zsets (get_messages_key_for_user 1) =
      [("hello", (2 : Rat))] from rfl, List.mem_singleton] at hp
    subst hp
    show (Datetime.fromtimestamp 2).isSome = true
    rw [fromtimestamp_dtE2]
    rfl
  exact ⟨hc, claim_C9 stMsg 1 hc⟩
